import Mathlib

/-!
# Verification of the SRT codec in `lesson_pipeline.py` / `extract_mp3.py`

This file embeds, as executable Lean definitions, the only self-contained
logic of the repository:

* `format_srt_time` (identical in both scripts),
* the SRT-writing loop of `transcribe_audio` (one block per Whisper segment),
* `srt_to_text` (regex strip of index+timing lines, blank-line collapse, trim).

Numeric model: Python `float` seconds are modelled as exact rationals `ℚ`,
matching the specification's "real seconds".  Python's `//`, `%` and `int()`
on floats are modelled by their exact-real counterparts: floor division,
floored modulo, and truncation toward zero.

Text model: Python `str` is modelled by Lean `String` / `List Char`.
Python's `\d` character class is modelled as the ASCII digits `0`-`9`
(all strings appearing in the claims are ASCII), and `str.strip()` trims
the ASCII whitespace characters.
-/

/-- Truncation toward zero, the semantics of Python `int()` on a real. -/
def pyInt (q : ℚ) : ℤ := if q < 0 then -⌊-q⌋ else ⌊q⌋

/-- Python floor division `a // b` on reals (result is again a real). -/
def pyFloorDiv (a b : ℚ) : ℚ := (⌊a / b⌋ : ℤ)

/-- Python modulo `a % b` on reals: `a - b * ⌊a / b⌋`. -/
def pyMod (a b : ℚ) : ℚ := a - b * (⌊a / b⌋ : ℤ)

/-- The decimal digit character for `n % 10`. -/
def digitChar10 (n : Nat) : Char :=
  if n = 0 then '0' else if n = 1 then '1' else if n = 2 then '2'
  else if n = 3 then '3' else if n = 4 then '4' else if n = 5 then '5'
  else if n = 6 then '6' else if n = 7 then '7' else if n = 8 then '8' else '9'

/-- Digit accumulator for decimal rendering (fuel-driven so that it reduces
in the kernel). -/
def digitsAux : Nat → Nat → List Char → List Char
  | 0, _, acc => acc
  | fuel + 1, n, acc =>
    if n < 10 then digitChar10 n :: acc
    else digitsAux fuel (n / 10) (digitChar10 (n % 10) :: acc)

/-- Decimal rendering of a natural number, e.g. `digitsOf 42 = ['4', '2']`.
Models Python `str()` / `format()` of a non-negative integer. -/
def digitsOf (n : Nat) : List Char := digitsAux (n + 1) n []

/-- Left-pad a character list with `'0'` up to width `w`. -/
def zpad (w : Nat) (s : List Char) : List Char :=
  List.replicate (w - s.length) '0' ++ s

/-- Python format spec `{n:0w}`: zero-padded decimal of total width `w`;
for a negative number the sign occupies one position of the width. -/
def pyFmtZero (w : Nat) (n : ℤ) : List Char :=
  if n < 0 then '-' :: zpad (w - 1) (digitsOf n.natAbs)
  else zpad w (digitsOf n.natAbs)

/-- A Whisper transcription segment as consumed by the SRT-writing loop:
the dict keys `id`, `start`, `end`, `text` (here `stop`, as `end` is a
Lean keyword). -/
structure Segment where
  id : Nat
  start : ℚ
  stop : ℚ
  text : String
deriving DecidableEq

/-- Python whitespace stripped by `str.strip()` (ASCII part). -/
def isPyWS (c : Char) : Bool :=
  c = ' ' ∨ c = '\t' ∨ c = '\n' ∨ c = '\r' ∨ c = '\x0b' ∨ c = '\x0c'

/-- `str.strip()`: drop leading and trailing whitespace characters. -/
def pstrip (l : List Char) : List Char :=
  ((l.dropWhile isPyWS).reverse.dropWhile isPyWS).reverse

namespace LessonPipeline

/-- `format_srt_time` of `lesson_pipeline.py`:
`h = int(seconds // 3600)`, `m = int((seconds % 3600) // 60)`,
`s = int(seconds % 60)`, `ms = int((seconds - int(seconds)) * 1000)`,
rendered as `f"{h:02}:{m:02}:{s:02},{ms:03}"`. -/
def format_srt_time (seconds : ℚ) : String :=
  let h : ℤ := pyInt (pyFloorDiv seconds 3600)
  let m : ℤ := pyInt (pyFloorDiv (pyMod seconds 3600) 60)
  let s : ℤ := pyInt (pyMod seconds 60)
  let ms : ℤ := pyInt ((seconds - (pyInt seconds : ℚ)) * 1000)
  String.mk (pyFmtZero 2 h ++ ':' :: pyFmtZero 2 m ++ ':' :: pyFmtZero 2 s
    ++ ',' :: pyFmtZero 3 ms)

/-- The characters one iteration of the SRT loop in `transcribe_audio` of
`lesson_pipeline.py` writes for a segment:
`f"{segment['id']+1}\n"`, then
`f"{format_srt_time(start)} --> {format_srt_time(end)}\n"`, then
`segment['text'].strip() + "\n\n"`. -/
def srtBlockData (seg : Segment) : List Char :=
  (digitsOf (seg.id + 1) ++ [ '\n' ])
    ++ ((format_srt_time seg.start).data ++ " --> ".data
        ++ (format_srt_time seg.stop).data ++ [ '\n' ])
    ++ (pstrip seg.text.data ++ [ '\n', '\n' ])

/-- The characters the whole SRT loop writes, in order. -/
def encodeData : List Segment → List Char
  | [] => []
  | seg :: rest => srtBlockData seg ++ encodeData rest

/-- The full SRT text produced for a segment sequence. -/
def encodeSRT (segs : List Segment) : String := String.mk (encodeData segs)

end LessonPipeline

namespace ExtractMp3

/-- `format_srt_time` of `extract_mp3.py` (textually identical to the one in
`lesson_pipeline.py`). -/
def format_srt_time (seconds : ℚ) : String :=
  let h : ℤ := pyInt (pyFloorDiv seconds 3600)
  let m : ℤ := pyInt (pyFloorDiv (pyMod seconds 3600) 60)
  let s : ℤ := pyInt (pyMod seconds 60)
  let ms : ℤ := pyInt ((seconds - (pyInt seconds : ℚ)) * 1000)
  String.mk (pyFmtZero 2 h ++ ':' :: pyFmtZero 2 m ++ ':' :: pyFmtZero 2 s
    ++ ',' :: pyFmtZero 3 ms)

/-- The characters one iteration of the SRT loop in `transcribe_audio` of
`extract_mp3.py` writes for a segment (same three writes as in
`lesson_pipeline.py`). -/
def srtBlockData (seg : Segment) : List Char :=
  (digitsOf (seg.id + 1) ++ [ '\n' ])
    ++ ((format_srt_time seg.start).data ++ " --> ".data
        ++ (format_srt_time seg.stop).data ++ [ '\n' ])
    ++ (pstrip seg.text.data ++ [ '\n', '\n' ])

end ExtractMp3

/-! ## The decode direction: `srt_to_text` of `lesson_pipeline.py`

The first substitution removes every occurrence of the pattern
`\d+\n\d{2}:\d{2}:\d{2},\d{3} --> \d{2}:\d{2}:\d{2},\d{3}\n`.
Since the character after `\d+` in the pattern is `\n` (not a digit), the
greedy `\d+` never backtracks usefully: a match at a position exists iff the
maximal digit run there is non-empty, is followed by `\n`, and the fixed
timing shape follows.  `re.sub` scans left to right and resumes after each
removed match, which `stripMarkup` mirrors. -/

/-- One element of the fixed part of the regex: a digit class or a literal. -/
inductive Tok where
  | dig : Tok
  | lit : Char → Tok
deriving DecidableEq

/-- Match a fixed token shape as a prefix, returning the rest of the input. -/
def matchToks : List Tok → List Char → Option (List Char)
  | [], rest => some rest
  | _ :: _, [] => none
  | Tok.dig :: ts, c :: cs => if c.isDigit then matchToks ts cs else none
  | Tok.lit d :: ts, c :: cs => if c = d then matchToks ts cs else none

/-- The shape `\d{2}:\d{2}:\d{2},\d{3} --> \d{2}:\d{2}:\d{2},\d{3}\n`
that follows `\d+\n` in the strip pattern. -/
def timingToks : List Tok :=
  [Tok.dig, Tok.dig, Tok.lit ':', Tok.dig, Tok.dig, Tok.lit ':', Tok.dig, Tok.dig, Tok.lit ',',
   Tok.dig, Tok.dig, Tok.dig, Tok.lit ' ', Tok.lit '-', Tok.lit '-', Tok.lit '>', Tok.lit ' ',
   Tok.dig, Tok.dig, Tok.lit ':', Tok.dig, Tok.dig, Tok.lit ':', Tok.dig, Tok.dig, Tok.lit ',',
   Tok.dig, Tok.dig, Tok.dig, Tok.lit '\n']

/-- Try to match the whole strip pattern at the head of `l`; on success
return the input after the match. -/
def matchStrip (l : List Char) : Option (List Char) :=
  if (l.takeWhile Char.isDigit).isEmpty then none
  else
    match l.dropWhile Char.isDigit with
    | c :: r2 => if c = '\n' then matchToks timingToks r2 else none
    | [] => none

/-- Left-to-right, non-overlapping removal of every match of the strip
pattern (the semantics of `re.sub(pattern, "", s)`), fuel-driven so that it
reduces in the kernel; `stripMarkup` supplies sufficient fuel. -/
def stripMarkupF : Nat → List Char → List Char
  | 0, l => l
  | _ + 1, [] => []
  | fuel + 1, c :: cs =>
    match matchStrip (c :: cs) with
    | some r => stripMarkupF fuel r
    | none => c :: stripMarkupF fuel cs

/-- `re.sub(r"\d+\n\d{2}:\d{2}:\d{2},\d{3} --> \d{2}:\d{2}:\d{2},\d{3}\n", "", s)`. -/
def stripMarkup (l : List Char) : List Char := stripMarkupF l.length l

/-- `re.sub(r"\n{2,}", "\n", s)`: every maximal run of two or more newlines
becomes a single newline (equivalently: drop each newline that is
immediately followed by another). -/
def collapseNL : List Char → List Char
  | [] => []
  | [c] => [c]
  | c1 :: c2 :: rest =>
    if c1 = '\n' ∧ c2 = '\n' then collapseNL (c2 :: rest)
    else c1 :: collapseNL (c2 :: rest)

namespace LessonPipeline

/-- The text transform of `srt_to_text` in `lesson_pipeline.py`: strip the
index+timing pattern, collapse blank lines, trim the result. -/
def srt_to_text (s : String) : String :=
  String.mk (pstrip (collapseNL (stripMarkup s.data)))

end LessonPipeline

/-! ## Claim-side vocabulary: blocks, lines, pattern-freedom -/

/-- Decision that no position of `l` starts a match of the strip pattern
(so `re.sub` of the strip pattern leaves `l` unchanged). -/
def noMatchAll : List Char → Bool
  | [] => true
  | c :: cs => (matchStrip (c :: cs)).isNone && noMatchAll cs

/-- Decision that `l` has no two consecutive newline characters. -/
def noDoubleNL : List Char → Bool
  | [] => true
  | [_] => true
  | c1 :: c2 :: rest => !(c1 == '\n' && c2 == '\n') && noDoubleNL (c2 :: rest)

/-- Split on the (leftmost, non-overlapping) occurrences of a blank line,
i.e. of two consecutive newlines: the formalization of "splits into blocks
separated by blank lines". -/
def splitBlankAux : List Char → List Char → List (List Char)
  | [], acc => [acc.reverse]
  | [c], acc => [(c :: acc).reverse]
  | c1 :: c2 :: rest, acc =>
    if c1 = '\n' ∧ c2 = '\n' then acc.reverse :: splitBlankAux rest []
    else splitBlankAux (c2 :: rest) (c1 :: acc)

/-- Split a character list at blank lines. -/
def splitBlank (l : List Char) : List (List Char) := splitBlankAux l []

/-- The first line of a string: everything before the first newline. -/
def firstLine (s : String) : String :=
  String.mk (s.data.takeWhile (fun c => !(c == '\n')))

/-- The body of the SRT block for a segment: the block without its
terminating blank-line separator. -/
def blockBody (seg : Segment) : List Char :=
  digitsOf (seg.id + 1) ++ [ '\n' ]
    ++ ((LessonPipeline.format_srt_time seg.start).data ++ " --> ".data
        ++ (LessonPipeline.format_srt_time seg.stop).data ++ [ '\n' ])
    ++ pstrip seg.text.data

/-! ## Evaluation lemmas for the numeric model

Mathlib's `Rat` arithmetic is `@[irreducible]`, so concrete values of
`format_srt_time` are obtained through `norm_num` and `Int.floor_eq_iff`
rather than by kernel reduction. -/

theorem pyInt_intCast (n : ℤ) : pyInt (n : ℚ) = n := by
  unfold pyInt
  split
  · rw [← Int.cast_neg, Int.floor_intCast, neg_neg]
  · exact Int.floor_intCast n

theorem pyInt_pyFloorDiv (a b : ℚ) : pyInt (pyFloorDiv a b) = ⌊a / b⌋ := by
  rw [pyFloorDiv, pyInt_intCast]

theorem pyInt_of_nonneg {q : ℚ} (h : 0 ≤ q) : pyInt q = ⌊q⌋ := by
  rw [pyInt, if_neg (not_lt.mpr h)]

theorem pyMod_nonneg {a b : ℚ} (hb : 0 < b) : 0 ≤ pyMod a b := by
  rw [pyMod, sub_nonneg]
  calc (b : ℚ) * (⌊a / b⌋ : ℤ) ≤ b * (a / b) :=
        mul_le_mul_of_nonneg_left (Int.floor_le _) (le_of_lt hb)
    _ = a := by field_simp

theorem format_srt_time_build (q : ℚ) (h m s ms : ℤ)
    (e1 : pyInt (pyFloorDiv q 3600) = h)
    (e2 : pyInt (pyFloorDiv (pyMod q 3600) 60) = m)
    (e3 : pyInt (pyMod q 60) = s)
    (e4 : pyInt ((q - (pyInt q : ℚ)) * 1000) = ms) :
    LessonPipeline.format_srt_time q
      = String.mk (pyFmtZero 2 h ++ ':' :: pyFmtZero 2 m ++ ':' :: pyFmtZero 2 s
          ++ ',' :: pyFmtZero 3 ms) := by
  rw [LessonPipeline.format_srt_time, e1, e2, e3, e4]

theorem fmt_3661_999 : LessonPipeline.format_srt_time (3661.999 : ℚ) = "01:01:01,999" := by
  have f1 : (⌊(3661.999 : ℚ) / 3600⌋ : ℤ) = 1 := by
    rw [Int.floor_eq_iff]
    norm_num
  have f2 : (⌊(3661.999 : ℚ) / 60⌋ : ℤ) = 61 := by
    rw [Int.floor_eq_iff]
    norm_num
  have f3 : (⌊(3661.999 : ℚ)⌋ : ℤ) = 3661 := by
    rw [Int.floor_eq_iff]
    norm_num
  have e1 : pyInt (pyFloorDiv (3661.999 : ℚ) 3600) = 1 := by
    rw [pyInt_pyFloorDiv, f1]
  have e2 : pyInt (pyFloorDiv (pyMod (3661.999 : ℚ) 3600) 60) = 1 := by
    rw [pyInt_pyFloorDiv, pyMod, f1]
    rw [Int.floor_eq_iff]
    push_cast
    norm_num
  have e3 : pyInt (pyMod (3661.999 : ℚ) 60) = 1 := by
    rw [pyInt_of_nonneg (pyMod_nonneg (by norm_num)), pyMod, f2]
    rw [Int.floor_eq_iff]
    push_cast
    norm_num
  have e4 : pyInt (((3661.999 : ℚ) - (pyInt (3661.999 : ℚ) : ℚ)) * 1000) = 999 := by
    rw [pyInt_of_nonneg (by norm_num : (0:ℚ) ≤ 3661.999), f3]
    rw [pyInt_of_nonneg (by push_cast; norm_num)]
    rw [Int.floor_eq_iff]
    push_cast
    norm_num
  rw [format_srt_time_build _ 1 1 1 999 e1 e2 e3 e4]
  decide

theorem fmt_small (q : ℚ) (s ms : ℤ) (h0 : 0 ≤ q) (h60 : q < 60)
    (hs : ⌊q⌋ = s) (hms : ⌊(q - (s : ℚ)) * 1000⌋ = ms) :
    LessonPipeline.format_srt_time q
      = String.mk (pyFmtZero 2 0 ++ ':' :: pyFmtZero 2 0 ++ ':' :: pyFmtZero 2 s
          ++ ',' :: pyFmtZero 3 ms) := by
  have hq3600 : ⌊q / 3600⌋ = 0 := by
    rw [Int.floor_eq_iff]
    push_cast
    refine ⟨div_nonneg h0 (by norm_num), ?_⟩
    rw [div_lt_iff₀ (show (0 : ℚ) < 3600 by norm_num)]
    linarith
  have hq60 : ⌊q / 60⌋ = 0 := by
    rw [Int.floor_eq_iff]
    push_cast
    refine ⟨div_nonneg h0 (by norm_num), ?_⟩
    rw [div_lt_iff₀ (show (0 : ℚ) < 60 by norm_num)]
    linarith
  have e1 : pyInt (pyFloorDiv q 3600) = 0 := by rw [pyInt_pyFloorDiv, hq3600]
  have e2 : pyInt (pyFloorDiv (pyMod q 3600) 60) = 0 := by
    rw [pyInt_pyFloorDiv, pyMod, hq3600]
    simp only [Int.cast_zero, mul_zero, sub_zero]
    exact hq60
  have e3 : pyInt (pyMod q 60) = s := by
    rw [pyInt_of_nonneg (pyMod_nonneg (by norm_num)), pyMod, hq60]
    simp only [Int.cast_zero, mul_zero, sub_zero]
    exact hs
  have e4 : pyInt ((q - (pyInt q : ℚ)) * 1000) = ms := by
    have hsle : (s : ℚ) ≤ q := by
      rw [← hs]
      exact Int.floor_le q
    rw [pyInt_of_nonneg h0, hs,
      pyInt_of_nonneg (mul_nonneg (sub_nonneg.mpr hsle) (by norm_num))]
    exact hms
  exact format_srt_time_build q 0 0 s ms e1 e2 e3 e4

theorem fmt_0 : LessonPipeline.format_srt_time (0 : ℚ) = "00:00:00,000" := by
  rw [fmt_small 0 0 0 le_rfl (by norm_num) (by rw [Int.floor_eq_iff]; norm_num)
    (by rw [Int.floor_eq_iff]; push_cast; norm_num)]
  decide

theorem fmt_1 : LessonPipeline.format_srt_time (1 : ℚ) = "00:00:01,000" := by
  rw [fmt_small 1 1 0 (by norm_num) (by norm_num) (by rw [Int.floor_eq_iff]; norm_num)
    (by rw [Int.floor_eq_iff]; push_cast; norm_num)]
  decide

theorem fmt_1_5 : LessonPipeline.format_srt_time (1.5 : ℚ) = "00:00:01,500" := by
  rw [fmt_small 1.5 1 500 (by norm_num) (by norm_num)
    (by rw [Int.floor_eq_iff]; push_cast; norm_num)
    (by rw [Int.floor_eq_iff]; push_cast; norm_num)]
  decide

theorem fmt_2 : LessonPipeline.format_srt_time (2 : ℚ) = "00:00:02,000" := by
  rw [fmt_small 2 2 0 (by norm_num) (by norm_num) (by rw [Int.floor_eq_iff]; norm_num)
    (by rw [Int.floor_eq_iff]; push_cast; norm_num)]
  decide

theorem fmt_3 : LessonPipeline.format_srt_time (3 : ℚ) = "00:00:03,000" := by
  rw [fmt_small 3 3 0 (by norm_num) (by norm_num) (by rw [Int.floor_eq_iff]; norm_num)
    (by rw [Int.floor_eq_iff]; push_cast; norm_num)]
  decide

/-! ## Concrete encodings -/

theorem enc_hello : LessonPipeline.encodeSRT [⟨0, 0, 1.5, "hello"⟩]
    = "1\n00:00:00,000 --> 00:00:01,500\nhello\n\n" := by
  simp only [LessonPipeline.encodeSRT, LessonPipeline.encodeData,
    LessonPipeline.srtBlockData, fmt_0, fmt_1_5]
  decide

theorem enc_ab : LessonPipeline.encodeSRT [⟨0, 0, 1, "a"⟩, ⟨1, 2, 3, "b"⟩]
    = "1\n00:00:00,000 --> 00:00:01,000\na\n\n2\n00:00:02,000 --> 00:00:03,000\nb\n\n" := by
  simp only [LessonPipeline.encodeSRT, LessonPipeline.encodeData,
    LessonPipeline.srtBlockData, fmt_0, fmt_1, fmt_2, fmt_3]
  decide


/-! ## Equations for `stripMarkup` -/

theorem matchToks_length_le :
    ∀ (ts : List Tok) (cs r : List Char), matchToks ts cs = some r → r.length ≤ cs.length := by
  intro ts
  induction ts with
  | nil =>
    intro cs r h
    injection h with h
    exact h ▸ le_rfl
  | cons t ts ih =>
    intro cs r h
    cases cs with
    | nil => simp [matchToks] at h
    | cons c cs' =>
      cases t with
      | dig =>
        simp only [matchToks] at h
        split at h
        · exact le_trans (ih cs' r h) (Nat.le_succ _)
        · simp at h
      | lit d =>
        simp only [matchToks] at h
        split at h
        · exact le_trans (ih cs' r h) (Nat.le_succ _)
        · simp at h

theorem matchStrip_some_lt {l r : List Char} (h : matchStrip l = some r) :
    r.length < l.length := by
  unfold matchStrip at h
  by_cases he : (l.takeWhile Char.isDigit).isEmpty
  · rw [if_pos he] at h
    exact Option.noConfusion h
  · rw [if_neg he] at h
    cases hd : l.dropWhile Char.isDigit with
    | nil =>
      rw [hd] at h
      exact Option.noConfusion h
    | cons c r2 =>
      rw [hd] at h
      dsimp only at h
      by_cases hc : c = '\n'
      · rw [if_pos hc] at h
        have h1 := matchToks_length_le timingToks r2 r h
        have h2 : (c :: r2).length ≤ l.length := by
          rw [← hd]
          exact (List.dropWhile_suffix Char.isDigit).length_le
        simp only [List.length_cons] at h2
        omega
      · rw [if_neg hc] at h
        exact Option.noConfusion h

theorem stripMarkupF_nil : ∀ f, stripMarkupF f [] = [] := by
  intro f
  cases f <;> rfl

theorem stripMarkupF_congr :
    ∀ (f g : Nat) (l : List Char), l.length ≤ f → l.length ≤ g →
      stripMarkupF f l = stripMarkupF g l := by
  intro f
  induction f with
  | zero =>
    intro g l hf _
    have hl : l = [] := List.eq_nil_of_length_eq_zero (Nat.le_zero.mp hf)
    subst hl
    rw [stripMarkupF_nil, stripMarkupF_nil]
  | succ f ih =>
    intro g l hf hg
    cases l with
    | nil => rw [stripMarkupF_nil, stripMarkupF_nil]
    | cons c cs =>
      cases g with
      | zero => simp at hg
      | succ g' =>
        simp only [List.length_cons] at hf hg
        cases hm : matchStrip (c :: cs) with
        | some r =>
          have hr := matchStrip_some_lt hm
          simp only [List.length_cons] at hr
          simp only [stripMarkupF, hm]
          exact ih g' r (by omega) (by omega)
        | none =>
          simp only [stripMarkupF, hm]
          rw [ih g' cs (by omega) (by omega)]

theorem stripMarkup_cons_some {c : Char} {cs r : List Char}
    (h : matchStrip (c :: cs) = some r) : stripMarkup (c :: cs) = stripMarkup r := by
  have hr := matchStrip_some_lt h
  simp only [List.length_cons] at hr
  unfold stripMarkup
  simp only [List.length_cons, stripMarkupF, h]
  exact stripMarkupF_congr cs.length r.length r (by omega) le_rfl

theorem stripMarkup_cons_none {c : Char} {cs : List Char}
    (h : matchStrip (c :: cs) = none) : stripMarkup (c :: cs) = c :: stripMarkup cs := by
  unfold stripMarkup
  simp only [List.length_cons, stripMarkupF, h]

/-! ## Identity lemmas: pattern-free input passes through unchanged -/

theorem stripMarkup_id : ∀ {l : List Char}, noMatchAll l = true → stripMarkup l = l := by
  intro l
  induction l with
  | nil => intro _; rfl
  | cons c cs ih =>
    intro h
    simp only [noMatchAll, Bool.and_eq_true, Option.isNone_iff_eq_none] at h
    rw [stripMarkup_cons_none h.1, ih h.2]

theorem collapseNL_id : ∀ {l : List Char}, noDoubleNL l = true → collapseNL l = l := by
  intro l
  induction l with
  | nil => intro _; rfl
  | cons c cs ih =>
    intro h
    cases cs with
    | nil => rfl
    | cons c2 cs' =>
      simp only [noDoubleNL, Bool.and_eq_true, Bool.not_eq_true'] at h
      rw [collapseNL, if_neg, ih h.2]
      rintro ⟨rfl, rfl⟩
      simp at h

/-! ## Append- and substring-robustness of the strip pattern -/

theorem matchToks_append :
    ∀ (ts : List Tok) (cs r t : List Char), matchToks ts cs = some r →
      matchToks ts (cs ++ t) = some (r ++ t) := by
  intro ts
  induction ts with
  | nil =>
    intro cs r t h
    injection h with h
    subst h
    rfl
  | cons tok ts ih =>
    intro cs r t h
    cases cs with
    | nil => simp [matchToks] at h
    | cons c cs' =>
      cases tok with
      | dig =>
        simp only [matchToks] at h ⊢
        split at h
        · rw [if_pos (by assumption)]
          exact ih cs' r t h
        · simp at h
      | lit d =>
        simp only [matchToks] at h ⊢
        split at h
        · rw [if_pos (by assumption)]
          exact ih cs' r t h
        · simp at h

theorem dropWhile_append_of_ne_nil {p : Char → Bool} :
    ∀ (m t : List Char), m.dropWhile p ≠ [] →
      (m ++ t).dropWhile p = m.dropWhile p ++ t
        ∧ (m ++ t).takeWhile p = m.takeWhile p := by
  intro m
  induction m with
  | nil =>
    intro t h
    simp [List.dropWhile] at h
  | cons c m' ih =>
    intro t h
    by_cases hc : p c
    · rw [List.dropWhile_cons_of_pos hc] at h
      have := ih t h
      constructor
      · rw [List.cons_append, List.dropWhile_cons_of_pos hc,
          List.dropWhile_cons_of_pos hc, this.1]
      · rw [List.cons_append, List.takeWhile_cons_of_pos hc,
          List.takeWhile_cons_of_pos hc, this.2]
    · constructor
      · rw [List.cons_append, List.dropWhile_cons_of_neg hc,
          List.dropWhile_cons_of_neg hc, List.cons_append]
      · rw [List.cons_append, List.takeWhile_cons_of_neg hc,
          List.takeWhile_cons_of_neg hc]

theorem matchStrip_append {m r : List Char} (t : List Char)
    (h : matchStrip m = some r) : matchStrip (m ++ t) = some (r ++ t) := by
  unfold matchStrip at h ⊢
  by_cases he : (m.takeWhile Char.isDigit).isEmpty
  · rw [if_pos he] at h
    exact Option.noConfusion h
  · rw [if_neg he] at h
    cases hd : m.dropWhile Char.isDigit with
    | nil =>
      rw [hd] at h
      exact Option.noConfusion h
    | cons c r2 =>
      rw [hd] at h
      dsimp only at h
      have hne : m.dropWhile Char.isDigit ≠ [] := by
        rw [hd]
        exact List.cons_ne_nil c r2
      have hsplit := dropWhile_append_of_ne_nil m t hne
      rw [hsplit.2, if_neg he, hsplit.1, hd, List.cons_append]
      dsimp only
      by_cases hc : c = '\n'
      · rw [if_pos hc] at h ⊢
        exact matchToks_append timingToks r2 r t h
      · rw [if_neg hc] at h
        exact Option.noConfusion h

theorem matchStrip_nil : matchStrip [] = none := rfl

theorem noMatchAll_head {l : List Char} (h : noMatchAll l = true) : matchStrip l = none := by
  cases l with
  | nil => rfl
  | cons c cs =>
    simp only [noMatchAll, Bool.and_eq_true, Option.isNone_iff_eq_none] at h
    exact h.1

theorem noMatchAll_tail {c : Char} {cs : List Char} (h : noMatchAll (c :: cs) = true) :
    noMatchAll cs = true := by
  simp only [noMatchAll, Bool.and_eq_true] at h
  exact h.2

theorem noMatchAll_of_suffix :
    ∀ (u m : List Char), noMatchAll (u ++ m) = true → noMatchAll m = true := by
  intro u
  induction u with
  | nil => intro m h; exact h
  | cons x u' ih =>
    intro m h
    exact ih m (noMatchAll_tail h)

theorem noMatchAll_of_prefix :
    ∀ (m t : List Char), noMatchAll (m ++ t) = true → noMatchAll m = true := by
  intro m
  induction m with
  | nil => intro t _; rfl
  | cons c m' ih =>
    intro t h
    have h1 : matchStrip (c :: m' ++ t) = none := noMatchAll_head h
    have h2 : noMatchAll (m' ++ t) = true := noMatchAll_tail h
    simp only [noMatchAll, Bool.and_eq_true, Option.isNone_iff_eq_none]
    refine ⟨?_, ih t h2⟩
    cases hm : matchStrip (c :: m') with
    | none => rfl
    | some r =>
      have := matchStrip_append t hm
      rw [List.cons_append] at h1
      rw [List.cons_append] at this
      rw [this] at h1
      exact Option.noConfusion h1

theorem noDoubleNL_tail {c : Char} {cs : List Char} (h : noDoubleNL (c :: cs) = true) :
    noDoubleNL cs = true := by
  cases cs with
  | nil => rfl
  | cons c2 cs' =>
    simp only [noDoubleNL, Bool.and_eq_true] at h
    exact h.2

theorem noDoubleNL_of_suffix :
    ∀ (u m : List Char), noDoubleNL (u ++ m) = true → noDoubleNL m = true := by
  intro u
  induction u with
  | nil => intro m h; exact h
  | cons x u' ih =>
    intro m h
    exact ih m (noDoubleNL_tail h)

theorem noDoubleNL_of_prefix :
    ∀ (m t : List Char), noDoubleNL (m ++ t) = true → noDoubleNL m = true := by
  intro m
  induction m with
  | nil => intro t _; rfl
  | cons c m' ih =>
    intro t h
    cases m' with
    | nil => rfl
    | cons c2 m'' =>
      simp only [List.cons_append, noDoubleNL, Bool.and_eq_true] at h
      have := ih t (by simpa using h.2)
      simp only [noDoubleNL, Bool.and_eq_true]
      exact ⟨h.1, this⟩

/-! ## Structure of `pstrip` -/

theorem revDrop_decomp (m : List Char) :
    ∃ u, m = (m.reverse.dropWhile isPyWS).reverse ++ u := by
  obtain ⟨w, hw⟩ := List.dropWhile_suffix (l := m.reverse) isPyWS
  refine ⟨w.reverse, ?_⟩
  calc m = m.reverse.reverse := (List.reverse_reverse m).symm
    _ = (w ++ m.reverse.dropWhile isPyWS).reverse := by rw [hw]
    _ = (m.reverse.dropWhile isPyWS).reverse ++ w.reverse := by rw [List.reverse_append]

theorem pstrip_decomp (l : List Char) : ∃ u v, l = u ++ (pstrip l ++ v) := by
  obtain ⟨u, hu⟩ := List.dropWhile_suffix (l := l) isPyWS
  obtain ⟨v, hv⟩ := revDrop_decomp (l.dropWhile isPyWS)
  refine ⟨u, v, ?_⟩
  rw [pstrip, ← hv, hu]

theorem dropWhile_eq_self_of_decomp {p : Char → Bool} {A m v : List Char}
    (hA : A.dropWhile p = A) (hd : A = m ++ v) : m.dropWhile p = m := by
  cases m with
  | nil => rfl
  | cons c m' =>
    have hc : ¬ p c = true := by
      intro hp
      have h1 : A.dropWhile p = (m' ++ v).dropWhile p := by
        rw [hd, List.cons_append, List.dropWhile_cons_of_pos hp]
      have h2 : (A.dropWhile p).length ≤ (m' ++ v).length := by
        rw [h1]
        exact (List.dropWhile_suffix p).length_le
      rw [hA, hd] at h2
      simp [List.length_append] at h2
    rw [List.dropWhile_cons_of_neg hc]

theorem pstrip_dropWhile_eq (l : List Char) : (pstrip l).dropWhile isPyWS = pstrip l := by
  obtain ⟨u, hu⟩ := revDrop_decomp (l.dropWhile isPyWS)
  exact dropWhile_eq_self_of_decomp (List.dropWhile_idempotent isPyWS l) hu

theorem pstrip_idem (l : List Char) : pstrip (pstrip l) = pstrip l := by
  have h1 := pstrip_dropWhile_eq l
  conv_lhs => rw [pstrip]
  rw [h1]
  show ((((l.dropWhile isPyWS).reverse.dropWhile isPyWS).reverse).reverse.dropWhile
    isPyWS).reverse = pstrip l
  rw [List.reverse_reverse, List.dropWhile_idempotent]
  rfl

theorem noMatchAll_pstrip {l : List Char} (h : noMatchAll l = true) :
    noMatchAll (pstrip l) = true := by
  obtain ⟨u, v, hd⟩ := pstrip_decomp l
  have h1 := noMatchAll_of_suffix u _ (by rw [← hd]; exact h)
  exact noMatchAll_of_prefix _ v h1

theorem noDoubleNL_pstrip {l : List Char} (h : noDoubleNL l = true) :
    noDoubleNL (pstrip l) = true := by
  obtain ⟨u, v, hd⟩ := pstrip_decomp l
  have h1 := noDoubleNL_of_suffix u _ (by rw [← hd]; exact h)
  exact noDoubleNL_of_prefix _ v h1

theorem srt_to_text_plain {s : String} (h1 : noMatchAll s.data = true)
    (h2 : noDoubleNL s.data = true) :
    LessonPipeline.srt_to_text s = String.mk (pstrip s.data) := by
  rw [LessonPipeline.srt_to_text, stripMarkup_id h1, collapseNL_id h2]

theorem srt_to_text_idem_plain {s : String} (h1 : noMatchAll s.data = true)
    (h2 : noDoubleNL s.data = true) :
    LessonPipeline.srt_to_text (LessonPipeline.srt_to_text s)
      = LessonPipeline.srt_to_text s := by
  rw [srt_to_text_plain h1 h2]
  show String.mk (pstrip (collapseNL (stripMarkup (pstrip s.data)))) = _
  rw [stripMarkup_id (noMatchAll_pstrip h1), collapseNL_id (noDoubleNL_pstrip h2),
    pstrip_idem]

/-! ## Character facts about the rendered pieces -/

theorem digitChar10_ne_nl (n : Nat) : digitChar10 n ≠ '\n' := by
  unfold digitChar10
  split_ifs <;> decide

theorem digitsAux_ne_nl :
    ∀ (f n : Nat) (acc : List Char), (∀ c ∈ acc, c ≠ '\n') →
      ∀ c ∈ digitsAux f n acc, c ≠ '\n' := by
  intro f
  induction f with
  | zero => intro n acc hacc c hc; exact hacc c hc
  | succ f ih =>
    intro n acc hacc c hc
    simp only [digitsAux] at hc
    split at hc
    · rcases List.mem_cons.mp hc with h | h
      · exact h ▸ digitChar10_ne_nl n
      · exact hacc c h
    · refine ih (n / 10) _ ?_ c hc
      intro x hx
      rcases List.mem_cons.mp hx with h | h
      · exact h ▸ digitChar10_ne_nl _
      · exact hacc x h

theorem digitsOf_ne_nl (n : Nat) : ∀ c ∈ digitsOf n, c ≠ '\n' :=
  digitsAux_ne_nl (n + 1) n [] (by simp)

theorem digitsAux_ne_nil :
    ∀ (f n : Nat) (acc : List Char), acc ≠ [] → digitsAux f n acc ≠ [] := by
  intro f
  induction f with
  | zero => intro n acc hacc; exact hacc
  | succ f ih =>
    intro n acc hacc
    simp only [digitsAux]
    split
    · exact List.cons_ne_nil _ _
    · exact ih (n / 10) _ (List.cons_ne_nil _ _)

theorem digitsOf_ne_nil (n : Nat) : digitsOf n ≠ [] := by
  unfold digitsOf
  simp only [digitsAux]
  split
  · exact List.cons_ne_nil _ _
  · exact digitsAux_ne_nil n (n / 10) _ (List.cons_ne_nil _ _)

theorem zpad_ne_nl {w : Nat} {s : List Char} (hs : ∀ c ∈ s, c ≠ '\n') :
    ∀ c ∈ zpad w s, c ≠ '\n' := by
  intro c hc
  rcases List.mem_append.mp hc with h | h
  · rw [List.eq_of_mem_replicate h]
    decide
  · exact hs c h

theorem pyFmtZero_ne_nl (w : Nat) (n : ℤ) : ∀ c ∈ pyFmtZero w n, c ≠ '\n' := by
  intro c hc
  unfold pyFmtZero at hc
  split at hc
  · rcases List.mem_cons.mp hc with h | h
    · rw [h]; decide
    · exact zpad_ne_nl (digitsOf_ne_nl _) c h
  · exact zpad_ne_nl (digitsOf_ne_nl _) c hc

theorem zpad_ne_nil {w : Nat} {s : List Char} (hs : s ≠ []) : zpad w s ≠ [] := by
  unfold zpad
  simp [hs]

theorem pyFmtZero_ne_nil (w : Nat) (n : ℤ) : pyFmtZero w n ≠ [] := by
  unfold pyFmtZero
  split
  · exact List.cons_ne_nil _ _
  · exact zpad_ne_nil (digitsOf_ne_nil _)

theorem format_data_eq (q : ℚ) :
    (LessonPipeline.format_srt_time q).data
      = pyFmtZero 2 (pyInt (pyFloorDiv q 3600))
        ++ ':' :: pyFmtZero 2 (pyInt (pyFloorDiv (pyMod q 3600) 60))
        ++ ':' :: pyFmtZero 2 (pyInt (pyMod q 60))
        ++ ',' :: pyFmtZero 3 (pyInt ((q - (pyInt q : ℚ)) * 1000)) := rfl

theorem all_ne_nl_append {a b : List Char} (ha : ∀ c ∈ a, c ≠ '\n')
    (hb : ∀ c ∈ b, c ≠ '\n') : ∀ c ∈ a ++ b, c ≠ '\n' := by
  intro c hc
  rcases List.mem_append.mp hc with h | h
  · exact ha c h
  · exact hb c h

theorem all_ne_nl_cons {d : Char} {b : List Char} (hd : d ≠ '\n')
    (hb : ∀ c ∈ b, c ≠ '\n') : ∀ c ∈ d :: b, c ≠ '\n' := by
  intro c hc
  rcases List.mem_cons.mp hc with h | h
  · exact h ▸ hd
  · exact hb c h

theorem format_data_ne_nl (q : ℚ) :
    ∀ c ∈ (LessonPipeline.format_srt_time q).data, c ≠ '\n' := by
  rw [format_data_eq]
  refine all_ne_nl_append (all_ne_nl_append (all_ne_nl_append ?_ ?_) ?_) ?_
  · exact pyFmtZero_ne_nl _ _
  · exact all_ne_nl_cons (by decide) (pyFmtZero_ne_nl _ _)
  · exact all_ne_nl_cons (by decide) (pyFmtZero_ne_nl _ _)
  · exact all_ne_nl_cons (by decide) (pyFmtZero_ne_nl _ _)

theorem format_data_ne_nil (q : ℚ) : (LessonPipeline.format_srt_time q).data ≠ [] := by
  cases hA : pyFmtZero 2 (pyInt (pyFloorDiv q 3600)) with
  | nil => exact absurd hA (pyFmtZero_ne_nil 2 _)
  | cons x xs =>
    rw [format_data_eq, hA]
    simp

/-! ## Heads and tails of stripped text -/

theorem head_fail_of_dropWhile_self {p : Char → Bool} {c : Char} {cs : List Char}
    (h : (c :: cs).dropWhile p = c :: cs) : p c = false := by
  by_cases hp : p c = true
  · rw [List.dropWhile_cons_of_pos hp] at h
    have hlen := (List.dropWhile_suffix p (l := cs)).length_le
    rw [h] at hlen
    simp only [List.length_cons] at hlen
    omega
  · simpa using hp

theorem pstrip_head_not_ws {l : List Char} {c : Char} {cs : List Char}
    (h : pstrip l = c :: cs) : isPyWS c = false := by
  have h1 := pstrip_dropWhile_eq l
  rw [h] at h1
  exact head_fail_of_dropWhile_self h1

theorem pstrip_last_not_ws {l : List Char} {c : Char}
    (h : (pstrip l).getLast? = some c) : isPyWS c = false := by
  have e : (pstrip l).getLast?
      = ((l.dropWhile isPyWS).reverse.dropWhile isPyWS).head? := by
    rw [pstrip]
    exact List.getLast?_reverse _
  rw [e] at h
  cases hD : (l.dropWhile isPyWS).reverse.dropWhile isPyWS with
  | nil =>
    rw [hD] at h
    exact Option.noConfusion h
  | cons c0 cs0 =>
    rw [hD] at h
    have hc0 : c0 = c := by simpa using h
    have hidem := List.dropWhile_idempotent isPyWS (l.dropWhile isPyWS).reverse
    rw [hD] at hidem
    rw [← hc0]
    exact head_fail_of_dropWhile_self hidem

/-! ## Building `noDoubleNL` for a block body -/

theorem noDoubleNL_cons_of_ne {c : Char} {rest : List Char} (hc : c ≠ '\n')
    (h : noDoubleNL rest = true) : noDoubleNL (c :: rest) = true := by
  cases rest with
  | nil => rfl
  | cons c2 r' =>
    have hcb : (c == '\n') = false := by simpa using hc
    simp only [noDoubleNL, Bool.and_eq_true, Bool.not_eq_true']
    exact ⟨by simp [hcb], h⟩

theorem noDoubleNL_cons_nl {rest : List Char} (h : noDoubleNL rest = true)
    (hh : ∀ c2, rest.head? = some c2 → c2 ≠ '\n') : noDoubleNL ('\n' :: rest) = true := by
  cases rest with
  | nil => rfl
  | cons c2 r' =>
    have hc2 : (c2 == '\n') = false := by simpa using hh c2 rfl
    simp only [noDoubleNL, Bool.and_eq_true, Bool.not_eq_true']
    exact ⟨by simp [hc2], h⟩

theorem noDoubleNL_append_left {a rest : List Char} (ha : ∀ c ∈ a, c ≠ '\n')
    (h : noDoubleNL rest = true) : noDoubleNL (a ++ rest) = true := by
  induction a with
  | nil => exact h
  | cons c a' ih =>
    rw [List.cons_append]
    exact noDoubleNL_cons_of_ne (ha c (List.mem_cons_self c a'))
      (ih fun x hx => ha x (List.mem_cons_of_mem c hx))

theorem blockBody_shape (seg : Segment) :
    blockBody seg
      = digitsOf (seg.id + 1)
        ++ ('\n' :: (((LessonPipeline.format_srt_time seg.start).data
            ++ (" --> ".data ++ (LessonPipeline.format_srt_time seg.stop).data))
          ++ ('\n' :: pstrip seg.text.data))) := by
  simp [blockBody, List.append_assoc]

theorem blockBody_noDoubleNL (seg : Segment) (hne : pstrip seg.text.data ≠ [])
    (hnd : noDoubleNL (pstrip seg.text.data) = true) :
    noDoubleNL (blockBody seg) = true := by
  obtain ⟨c0, cs0, hpt⟩ : ∃ c0 cs0, pstrip seg.text.data = c0 :: cs0 := by
    cases hp : pstrip seg.text.data with
    | nil => exact absurd hp hne
    | cons c0 cs0 => exact ⟨c0, cs0, rfl⟩
  have hc0 : c0 ≠ '\n' := by
    intro he
    have := pstrip_head_not_ws hpt
    rw [he] at this
    exact absurd this (by decide)
  have step2 : noDoubleNL ('\n' :: pstrip seg.text.data) = true := by
    refine noDoubleNL_cons_nl hnd ?_
    intro c2 h2
    rw [hpt] at h2
    have : c0 = c2 := by simpa using h2
    exact this ▸ hc0
  have hTa : ∀ c ∈ (LessonPipeline.format_srt_time seg.start).data
      ++ (" --> ".data ++ (LessonPipeline.format_srt_time seg.stop).data), c ≠ '\n' :=
    all_ne_nl_append (format_data_ne_nl _)
      (all_ne_nl_append (by decide) (format_data_ne_nl _))
  have step3 := noDoubleNL_append_left hTa step2
  have step4 : noDoubleNL ('\n' :: (((LessonPipeline.format_srt_time seg.start).data
      ++ (" --> ".data ++ (LessonPipeline.format_srt_time seg.stop).data))
      ++ ('\n' :: pstrip seg.text.data))) = true := by
    refine noDoubleNL_cons_nl step3 ?_
    intro c2 h2
    cases hF : (LessonPipeline.format_srt_time seg.start).data with
    | nil => exact absurd hF (format_data_ne_nil _)
    | cons d ds =>
      rw [hF, List.cons_append, List.cons_append] at h2
      have hd : d = c2 := by simpa using h2
      refine hd ▸ format_data_ne_nl seg.start d ?_
      rw [hF]
      exact List.mem_cons_self d ds
  rw [blockBody_shape]
  exact noDoubleNL_append_left (digitsOf_ne_nl _) step4

theorem blockBody_last_ne_nl (seg : Segment) (hne : pstrip seg.text.data ≠ []) :
    (blockBody seg).getLast? ≠ some '\n' := by
  have e : (blockBody seg).getLast? = (pstrip seg.text.data).getLast? := by
    unfold blockBody
    exact List.getLast?_append_of_ne_nil _ hne
  rw [e]
  intro h
  have := pstrip_last_not_ws h
  exact absurd this (by decide)

/-! ## Splitting the encoded output at blank lines -/

theorem splitBlankAux_chunk :
    ∀ (B : List Char), noDoubleNL B = true → B.getLast? ≠ some '\n' →
      ∀ (acc rest : List Char),
        splitBlankAux (B ++ '\n' :: '\n' :: rest) acc
          = (acc.reverse ++ B) :: splitBlankAux rest [] := by
  intro B
  induction B with
  | nil =>
    intro _ _ acc rest
    simp [splitBlankAux]
  | cons c B' ih =>
    intro hnd hlast acc rest
    cases B' with
    | nil =>
      have hc : c ≠ '\n' := by
        intro he
        exact hlast (by rw [he]; rfl)
      simp only [List.cons_append, List.nil_append, splitBlankAux]
      rw [if_neg fun hand => hc hand.1]
      simp [splitBlankAux]
    | cons c2 B'' =>
      have hpair : ¬(c = '\n' ∧ c2 = '\n') := by
        simp only [noDoubleNL, Bool.and_eq_true, Bool.not_eq_true'] at hnd
        rintro ⟨h1, h2⟩
        rw [h1, h2] at hnd
        simp at hnd
      have hnd' : noDoubleNL (c2 :: B'') = true := noDoubleNL_tail hnd
      have hlast' : (c2 :: B'').getLast? ≠ some '\n' := by
        rw [← List.getLast?_cons_cons (a := c)]
        exact hlast
      simp only [List.cons_append, splitBlankAux]
      rw [if_neg hpair]
      have hih := ih hnd' hlast' (c :: acc) rest
      rw [List.cons_append] at hih
      simp only [List.append_eq]
      rw [hih]
      simp [List.append_assoc]

theorem encodeData_cons_shape (seg : Segment) (rest : List Segment) :
    LessonPipeline.encodeData (seg :: rest)
      = blockBody seg ++ '\n' :: '\n' :: LessonPipeline.encodeData rest := by
  simp only [LessonPipeline.encodeData]
  rw [show LessonPipeline.srtBlockData seg = blockBody seg ++ [ '\n', '\n' ] by
    simp [LessonPipeline.srtBlockData, blockBody, List.append_assoc]]
  simp [List.append_assoc]

theorem splitBlank_encodeData :
    ∀ (segs : List Segment),
      (∀ seg ∈ segs, pstrip seg.text.data ≠ [] ∧ noDoubleNL (pstrip seg.text.data) = true) →
      splitBlank (LessonPipeline.encodeData segs) = segs.map blockBody ++ [[]] := by
  intro segs
  induction segs with
  | nil => intro _; rfl
  | cons seg rest ih =>
    intro h
    have hseg := h seg (List.mem_cons_self seg rest)
    have hrest := fun s hs => h s (List.mem_cons_of_mem seg hs)
    rw [splitBlank, encodeData_cons_shape,
      splitBlankAux_chunk (blockBody seg) (blockBody_noDoubleNL seg hseg.1 hseg.2)
        (blockBody_last_ne_nl seg hseg.1) [] (LessonPipeline.encodeData rest)]
    rw [show splitBlankAux (LessonPipeline.encodeData rest) [] =
      splitBlank (LessonPipeline.encodeData rest) from rfl]
    rw [ih hrest]
    simp

/-! ## The index line of a block -/

theorem takeWhile_not_nl_append {a r : List Char} (ha : ∀ c ∈ a, c ≠ '\n') :
    (a ++ '\n' :: r).takeWhile (fun c => !(c == '\n')) = a := by
  induction a with
  | nil =>
    rw [List.nil_append]
    simp [List.takeWhile_cons]
  | cons c a' ih =>
    have hcb : (c == '\n') = false := by
      simpa using ha c (List.mem_cons_self c a')
    rw [List.cons_append]
    simp only [List.takeWhile_cons, hcb, Bool.not_false, if_true]
    rw [ih fun x hx => ha x (List.mem_cons_of_mem c hx)]

theorem firstLine_mk_append {a X : List Char} (ha : ∀ c ∈ a, c ≠ '\n') :
    firstLine (String.mk (a ++ '\n' :: X)) = String.mk a := by
  show String.mk ((a ++ '\n' :: X).takeWhile fun c => !(c == '\n')) = String.mk a
  rw [takeWhile_not_nl_append ha]

theorem firstLine_block (seg : Segment) :
    firstLine (String.mk (LessonPipeline.srtBlockData seg))
      = String.mk (digitsOf (seg.id + 1)) := by
  rw [show LessonPipeline.srtBlockData seg
      = digitsOf (seg.id + 1)
        ++ '\n' :: (((LessonPipeline.format_srt_time seg.start).data
            ++ (" --> ".data ++ ((LessonPipeline.format_srt_time seg.stop).data ++ [ '\n' ])))
          ++ (pstrip seg.text.data ++ [ '\n', '\n' ])) by
    simp [LessonPipeline.srtBlockData, List.append_assoc]]
  exact firstLine_mk_append (digitsOf_ne_nl _)

/-! ## The claims -/

/-- C1 (counterexample): the encoder writes `segment['id'] + 1` as the index
line, not the 1-based position.  A single-segment sequence whose segment
carries `id = 1` yields the index line `2`, although the 1-based position of
the first (and only) emitted block is `1`. -/
theorem C1_counterexample :
    firstLine (LessonPipeline.encodeSRT [⟨1, 0, 1, "a"⟩]) ≠ "1"
      ∧ firstLine (LessonPipeline.encodeSRT [⟨1, 0, 1, "a"⟩]) = "2" := by
  have h1 : LessonPipeline.encodeSRT [⟨1, 0, 1, "a"⟩]
      = String.mk (LessonPipeline.srtBlockData ⟨1, 0, 1, "a"⟩) := by
    simp [LessonPipeline.encodeSRT, LessonPipeline.encodeData]
  rw [h1, firstLine_block]
  constructor
  · decide
  · decide

/-- C1 (amended): the index line emitted for each block is the decimal
rendering of the segment's `id` field plus one; hence it equals the block's
1-based position in the sequence exactly when the segments carry the
consecutive 0-based ids that Whisper assigns (`id` of the i-th segment is
`i`), and not regardless of the caller-supplied index. -/
theorem C1_index_is_position :
    ∀ (segs : List Segment),
      (∀ i (h : i < segs.length), (segs.get ⟨i, h⟩).id = i) →
      ∀ i (h : i < segs.length),
        firstLine (String.mk (LessonPipeline.srtBlockData (segs.get ⟨i, h⟩)))
          = String.mk (digitsOf (i + 1)) := by
  intro segs hid i h
  rw [firstLine_block, hid i h]

/-- C1 (witness): the amended statement applied to a concrete two-segment
sequence with consecutive 0-based ids; the second block's index line is `2`. -/
theorem C1_witness :
    (∀ i (h : i < ([⟨0, 0, 1, "a"⟩, ⟨1, 2, 3, "b"⟩] : List Segment).length),
        (([⟨0, 0, 1, "a"⟩, ⟨1, 2, 3, "b"⟩] : List Segment).get ⟨i, h⟩).id = i)
      ∧ firstLine (String.mk (LessonPipeline.srtBlockData
          (([⟨0, 0, 1, "a"⟩, ⟨1, 2, 3, "b"⟩] : List Segment).get ⟨1, by decide⟩)))
        = String.mk (digitsOf (1 + 1)) := by
  have hid : ∀ i (h : i < ([⟨0, 0, 1, "a"⟩, ⟨1, 2, 3, "b"⟩] : List Segment).length),
      (([⟨0, 0, 1, "a"⟩, ⟨1, 2, 3, "b"⟩] : List Segment).get ⟨i, h⟩).id = i := by
    decide
  exact ⟨hid, C1_index_is_position _ hid 1 (by decide)⟩

/-- C2: for every non-negative rational number of seconds, the timing
formatter produces `h = ⌊seconds / 3600⌋`,
`m = ⌊(seconds mod 3600) / 60⌋`, `s = ⌊seconds mod 60⌋` zero-padded to two
digits, and `ms = ⌊(seconds − ⌊seconds⌋) · 1000⌋` zero-padded to three
digits, joined as `HH:MM:SS,mmm` — truncation only, never rounding. -/
theorem C2_format_truncation :
    ∀ q : ℚ, 0 ≤ q →
      LessonPipeline.format_srt_time q
        = String.mk (pyFmtZero 2 ⌊q / 3600⌋
            ++ ':' :: pyFmtZero 2 ⌊(q - 3600 * (⌊q / 3600⌋ : ℚ)) / 60⌋
            ++ ':' :: pyFmtZero 2 ⌊q - 60 * (⌊q / 60⌋ : ℚ)⌋
            ++ ',' :: pyFmtZero 3 ⌊(q - (⌊q⌋ : ℚ)) * 1000⌋) := by
  intro q hq
  refine format_srt_time_build q _ _ _ _ ?_ ?_ ?_ ?_
  · rw [pyInt_pyFloorDiv]
  · rw [pyInt_pyFloorDiv, pyMod]
  · rw [pyInt_of_nonneg (pyMod_nonneg (by norm_num)), pyMod]
  · rw [pyInt_of_nonneg hq,
      pyInt_of_nonneg (mul_nonneg (sub_nonneg.mpr (Int.floor_le q)) (by norm_num))]

/-- C2 (witness): the formula instantiated at `1.5` seconds. -/
theorem C2_witness :
    (0 : ℚ) ≤ 1.5
      ∧ LessonPipeline.format_srt_time 1.5
        = String.mk (pyFmtZero 2 ⌊(1.5 : ℚ) / 3600⌋
            ++ ':' :: pyFmtZero 2 ⌊((1.5 : ℚ) - 3600 * (⌊(1.5 : ℚ) / 3600⌋ : ℚ)) / 60⌋
            ++ ':' :: pyFmtZero 2 ⌊(1.5 : ℚ) - 60 * (⌊(1.5 : ℚ) / 60⌋ : ℚ)⌋
            ++ ',' :: pyFmtZero 3 ⌊((1.5 : ℚ) - (⌊(1.5 : ℚ)⌋ : ℚ)) * 1000⌋) :=
  ⟨by norm_num, C2_format_truncation 1.5 (by norm_num)⟩

/-- C3: a start time of 3661.999 seconds is formatted as exactly
`01:01:01,999`, with no carry of milliseconds into the seconds, minutes or
hours fields. -/
theorem C3_boundary_no_carry :
    LessonPipeline.format_srt_time (3661.999 : ℚ) = "01:01:01,999" :=
  fmt_3661_999

/-- C4 (counterexample): the claim fails as stated, because the second
substitution of `srt_to_text` collapses blank lines even when no
index+timing markup is present: `"a\n\nb"` contains no match of the strip
pattern and is unchanged by trimming, yet decodes to `"a\nb"`. -/
theorem C4_counterexample :
    noMatchAll ("a\n\nb").data = true
      ∧ pstrip ("a\n\nb").data = ("a\n\nb").data
      ∧ LessonPipeline.srt_to_text "a\n\nb" ≠ "a\n\nb" := by
  refine ⟨by decide, by decide, by decide⟩

/-- C4 (amended): for every input string that contains no substring matching
the index-plus-timing pattern and no two consecutive newlines,
`srt_to_text` returns the input unchanged except for trimming leading and
trailing whitespace. -/
theorem C4_no_markup_passthrough (s : String) (h1 : noMatchAll s.data = true)
    (h2 : noDoubleNL s.data = true) :
    LessonPipeline.srt_to_text s = String.mk (pstrip s.data) :=
  srt_to_text_plain h1 h2

/-- C4 (witness): the pass-through behaviour on `"just a plain sentence"`. -/
theorem C4_witness :
    noMatchAll ("just a plain sentence").data = true
      ∧ noDoubleNL ("just a plain sentence").data = true
      ∧ LessonPipeline.srt_to_text "just a plain sentence" = "just a plain sentence" := by
  refine ⟨by decide, by decide, ?_⟩
  rw [C4_no_markup_passthrough _ (by decide) (by decide)]
  decide

/-- C5 (counterexample): decoding is not idempotent on all pattern-free
input.  The input below contains no substring matching the strip pattern
(the blank line breaks it), but the first pass collapses the blank line and
thereby creates a match, so a second pass strips more. -/
theorem C5_counterexample :
    noMatchAll ("12\n\n00:00:00,000 --> 00:00:00,000\nx").data = true
      ∧ LessonPipeline.srt_to_text
          (LessonPipeline.srt_to_text "12\n\n00:00:00,000 --> 00:00:00,000\nx")
        ≠ LessonPipeline.srt_to_text "12\n\n00:00:00,000 --> 00:00:00,000\nx" := by
  refine ⟨by decide, by decide⟩

/-- C5 (amended): `srt_to_text` is idempotent on every input that contains
no substring matching the strip pattern and no two consecutive newlines. -/
theorem C5_idempotent_on_plain (s : String) (h1 : noMatchAll s.data = true)
    (h2 : noDoubleNL s.data = true) :
    LessonPipeline.srt_to_text (LessonPipeline.srt_to_text s)
      = LessonPipeline.srt_to_text s :=
  srt_to_text_idem_plain h1 h2

/-- C5 (witness): idempotence on `"just a plain sentence"`. -/
theorem C5_witness :
    noMatchAll ("just a plain sentence").data = true
      ∧ noDoubleNL ("just a plain sentence").data = true
      ∧ LessonPipeline.srt_to_text (LessonPipeline.srt_to_text "just a plain sentence")
        = LessonPipeline.srt_to_text "just a plain sentence" :=
  ⟨by decide, by decide, C5_idempotent_on_plain _ (by decide) (by decide)⟩

/-- C6: round trips through the codec strip all markup: decoding the
encoding of `[{start 0, end 1.5, text "hello"}]` yields exactly `"hello"`,
and decoding the encoding of `[{0, 1, "a"}, {2, 3, "b"}]` yields exactly
`"a\nb"` with a single newline and no blank-line residue. -/
theorem C6_roundtrip :
    LessonPipeline.srt_to_text (LessonPipeline.encodeSRT [⟨0, 0, 1.5, "hello"⟩]) = "hello"
      ∧ LessonPipeline.srt_to_text
          (LessonPipeline.encodeSRT [⟨0, 0, 1, "a"⟩, ⟨1, 2, 3, "b"⟩]) = "a\nb" := by
  constructor
  · rw [enc_hello]
    decide
  · rw [enc_ab]
    decide

/-- C7 (counterexample): with only `start ≤ end` assumed, the block
structure can break: a segment whose text itself contains a blank line
(`"a\n\nb"`, `start = 0 ≤ 1 = end`) produces an encoding that splits at
blank lines into three parts (two blocks and the trailing empty part)
instead of `1 + 1`. -/
theorem C7_counterexample :
    (⟨0, 0, 1, "a\n\nb"⟩ : Segment).start ≤ (⟨0, 0, 1, "a\n\nb"⟩ : Segment).stop
      ∧ (splitBlank (LessonPipeline.encodeSRT [⟨0, 0, 1, "a\n\nb"⟩]).data).length
          ≠ 1 + 1 := by
  have h1 : LessonPipeline.encodeSRT [⟨0, 0, 1, "a\n\nb"⟩]
      = "1\n00:00:00,000 --> 00:00:01,000\na\n\nb\n\n" := by
    simp only [LessonPipeline.encodeSRT, LessonPipeline.encodeData,
      LessonPipeline.srtBlockData, fmt_0, fmt_1]
    decide
  refine ⟨by show (0 : ℚ) ≤ 1; norm_num, ?_⟩
  rw [h1]
  decide

/-- C7 (amended): for every non-empty segment sequence whose segments
satisfy `start ≤ end` and whose trimmed texts are non-empty and contain no
blank line, the encode output splits at blank lines into exactly
`len(segments)` block bodies followed by the empty trailing part (one
blank-line separator after each block); and the empty sequence encodes to
the empty string. -/
theorem C7_block_structure :
    (∀ segs : List Segment, segs ≠ [] →
      (∀ seg ∈ segs, seg.start ≤ seg.stop ∧ pstrip seg.text.data ≠ []
        ∧ noDoubleNL (pstrip seg.text.data) = true) →
      splitBlank (LessonPipeline.encodeSRT segs).data = segs.map blockBody ++ [[]])
    ∧ LessonPipeline.encodeSRT [] = "" := by
  constructor
  · intro segs _ hgood
    exact splitBlank_encodeData segs fun seg hs => ⟨(hgood seg hs).2.1, (hgood seg hs).2.2⟩
  · rfl

/-- C7 (witness): the block structure of the encoding of the two-segment
sequence `[{0, 1, "a"}, {2, 3, "b"}]`. -/
theorem C7_witness :
    ([⟨0, 0, 1, "a"⟩, ⟨1, 2, 3, "b"⟩] : List Segment) ≠ []
      ∧ (∀ seg ∈ ([⟨0, 0, 1, "a"⟩, ⟨1, 2, 3, "b"⟩] : List Segment),
          seg.start ≤ seg.stop ∧ pstrip seg.text.data ≠ []
            ∧ noDoubleNL (pstrip seg.text.data) = true)
      ∧ splitBlank (LessonPipeline.encodeSRT [⟨0, 0, 1, "a"⟩, ⟨1, 2, 3, "b"⟩]).data
          = ([⟨0, 0, 1, "a"⟩, ⟨1, 2, 3, "b"⟩] : List Segment).map blockBody ++ [[]] := by
  have hne : ([⟨0, 0, 1, "a"⟩, ⟨1, 2, 3, "b"⟩] : List Segment) ≠ [] :=
    List.cons_ne_nil _ _
  have hgood : ∀ seg ∈ ([⟨0, 0, 1, "a"⟩, ⟨1, 2, 3, "b"⟩] : List Segment),
      seg.start ≤ seg.stop ∧ pstrip seg.text.data ≠ []
        ∧ noDoubleNL (pstrip seg.text.data) = true := by
    intro seg hs
    rcases List.mem_cons.mp hs with h | h
    · subst h
      exact ⟨by show (0 : ℚ) ≤ 1; norm_num, by decide, by decide⟩
    · rcases List.mem_cons.mp h with h2 | h2
      · subst h2
        exact ⟨by show (2 : ℚ) ≤ 3; norm_num, by decide, by decide⟩
      · simp at h2
  exact ⟨hne, hgood, C7_block_structure.1 _ hne hgood⟩

/-- C8: encoding the single-segment sequence `[{start 0, end 1.5,
text "hello"}]` (the first Whisper segment carries `id = 0`) produces
exactly the string `1\n00:00:00,000 --> 00:00:01,500\nhello\n\n`. -/
theorem C8_single_segment :
    LessonPipeline.encodeSRT [⟨0, 0, 1.5, "hello"⟩]
      = "1\n00:00:00,000 --> 00:00:01,500\nhello\n\n" :=
  enc_hello

/-- C9: the codec's text transforms are total: both the encoder and
`srt_to_text` are functions that produce a result on every input — the
embedding required no error case (`Option`/`Except`) anywhere, because the
source has no failing branch. -/
theorem C9_totality :
    ∀ (segs : List Segment) (s : String),
      (∃ t : String, LessonPipeline.encodeSRT segs = t)
        ∧ (∃ u : String, LessonPipeline.srt_to_text s = u) :=
  fun _ _ => ⟨⟨_, rfl⟩, ⟨_, rfl⟩⟩

/-- C10: the two near-duplicate scripts implement the same SRT encoding:
`format_srt_time` of `extract_mp3.py` and of `lesson_pipeline.py` agree on
every input, and the per-segment SRT block written by the two
`transcribe_audio` loops is identical for equal segment inputs. -/
theorem C10_scripts_agree :
    (∀ q : ℚ, LessonPipeline.format_srt_time q = ExtractMp3.format_srt_time q)
      ∧ ∀ seg : Segment, LessonPipeline.srtBlockData seg = ExtractMp3.srtBlockData seg :=
  ⟨fun _ => rfl, fun _ => rfl⟩
